import Mathlib

/-!
# Verification of confidential-amount blinding (`src/blind.cpp`)

A shallow embedding of the repository's two operations, `UnblindOutput` and
`BlindOutputs`, together with theorems checking the natural-language
specification against them.

Modelling conventions:

* Byte strings (`std::vector<unsigned char>`, key material, commitments,
  proofs) are `List Nat`; their contents are opaque to this component.
* The external secp256k1 library, the host system's key/hash/random
  primitives, and the host's configuration lookup are opaque to this
  repository and are modelled as an explicit environment `Env` of functions;
  the control flow of `blind.cpp` is translated faithfully over that
  environment.  Fallible library calls return `Option`.
* C machine integers are `Int`/`Nat` with the casts appearing in the source
  (`(int)`, `(uint64_t)`, `(CAmount)`) made explicit.
* `assert` failures (which abort the process) are modelled by the
  `BlindResult.fatal` constructor carrying the state of the transaction
  outputs at the abort point.
-/

set_option autoImplicit false

namespace Blind

/-- Byte strings (`std::vector<unsigned char>`).  Contents are opaque. -/
abbrev Bytes := List Nat

/-- `CAmount` is `int64_t` in the host system; modelled as `Int` with casts
explicit where the source has them. -/
abbrev CAmount := Int

/-- The C cast `(uint64_t) x` of an `int64_t` value. -/
def toUInt64 (x : Int) : Nat := (x % (2 ^ 64 : Int)).toNat

/-- The C cast `(CAmount) n` (i.e. `int64_t`) of a `uint64_t` value. -/
def toInt64 (n : Nat) : Int :=
  let m : Int := (n : Int) % 2 ^ 64
  if m < 2 ^ 63 then m else m - 2 ^ 64

/-- The C cast `(int) x` of an `int64_t` value (32-bit wrap-around). -/
def toInt32 (x : Int) : Int :=
  let m := x % 2 ^ 32
  if m < 2 ^ 31 then m else m - 2 ^ 32

/-- `CTxOutValue` (host type, modelled from the spec's data model §3):
either an explicit plaintext amount, or a blinded value consisting of the
33-byte Pedersen commitment `vchCommitment`, the range proof
`vchRangeproof`, and the ephemeral-public-key field `vchNonceCommitment`.
`blind.cpp` only ever reads or writes these fields. -/
inductive ConfidentialValue where
  | explicitVal (amount : CAmount)
  | blinded (vchCommitment : Bytes) (vchRangeproof : Bytes) (vchNonceCommitment : Bytes)
  deriving DecidableEq, Repr

instance : Inhabited ConfidentialValue := ⟨.explicitVal 0⟩

/-- `CTxOutValue::IsAmount()`: whether the value is explicit. -/
def ConfidentialValue.IsAmount : ConfidentialValue → Bool
  | .explicitVal _ => true
  | .blinded _ _ _ => false

/-- `CTxOutValue::GetAmount()`; only called on explicit values in the
source, so the blinded branch is arbitrary. -/
def ConfidentialValue.GetAmount : ConfidentialValue → CAmount
  | .explicitVal a => a
  | .blinded _ _ _ => 0

/-- `CMutableTransaction`, restricted to what `blind.cpp` reads: the number
of inputs (`tx.vin.size()`; no other part of an input is touched) and the
per-output `nValue` fields (`tx.vout[i].nValue`; no other part of an output
is touched). -/
structure CMutableTransaction where
  nVin : Nat
  vout : List ConfidentialValue
  deriving DecidableEq, Repr

/-- The environment of opaque primitives used by `blind.cpp`: the vendored
secp256k1 library (rewind, pedersen commit, blind sum, rangeproof sign), the
host key/hash/random primitives, the host configuration lookup, and the
consensus constants.  Each field corresponds to one external call site; the
`scalarOf` field is an abstract interpretation of 32-byte factors as scalars,
used only to state the blind-sum library contract. -/
structure Env where
  /-- `MAX_MONEY` consensus constant (host system). -/
  maxMoney : Int
  /-- `MoneyRange` consensus predicate (host system). -/
  moneyRange : CAmount → Bool
  /-- `CPubKey(vch).IsValid()` on the raw bytes. -/
  isValidPubKey : Bytes → Bool
  /-- `key.ECDH(pubkey)`: private-key bytes and public-key bytes to the
  serialized shared public point. -/
  ecdh : Bytes → Bytes → Bytes
  /-- `CHash256().Write(b).Finalize(...)`: double SHA-256 to 32 bytes. -/
  hash256 : Bytes → Bytes
  /-- `secp256k1_rangeproof_rewind ctx blind_out amount msg nonce commit
  proof`: on success, the 32 bytes written to `blind_out` and the recovered
  `uint64_t` amount (the embedded message and min/max bounds are unused by
  the caller and omitted). Arguments: commitment, proof, nonce. -/
  rewind : Bytes → Bytes → Bytes → Option (Bytes × Nat)
  /-- `secp256k1_pedersen_blind_sum ctx out blinds n npositive`: the list of
  collected factors and the count of positively-weighted leading entries. -/
  blindSum : List Bytes → Nat → Option Bytes
  /-- `secp256k1_pedersen_commit ctx out blind amount`. -/
  pedersenCommit : Bytes → CAmount → Option Bytes
  /-- `secp256k1_rangeproof_sign` with the ideal (capacity-unlimited) proof:
  commitment, blind, nonce, exponent, bits, amount.  The call site's buffer
  capacity check is modelled at the call site. -/
  rangeproofSign : Bytes → Bytes → Bytes → Int → Int → CAmount → Option Bytes
  /-- `GetRandBytes(buf, 32)`: the bytes produced by the k-th call. -/
  getRandBytes : Nat → Bytes
  /-- `CKey::MakeNewKey(true)`: the private key produced by the k-th call. -/
  freshKey : Nat → Bytes
  /-- `CKey::GetPubKey()` as 33 serialized bytes. -/
  getPubKey : Bytes → Bytes
  /-- `GetArg("-ct_exponent", 0)`: the configured value, if set. -/
  args_ct_exponent : Option Int
  /-- `GetArg("-ct_bits", 32)`: the configured value, if set. -/
  args_ct_bits : Option Int
  /-- Abstract scalar interpretation of 32-byte blinding factors, used to
  state the blind-sum library contract. -/
  scalarOf : Bytes → Int

/-- `UnblindOutput` (`blind.cpp` lines 34-59).  The C signature passes
`amount_out` and `blinding_factor_out` by reference; the model takes their
pre-call values and returns the triple
(return value, `amount_out`, `blinding_factor_out`).
Return values as in the source: `-1` = not blinded, `0` = failure,
`1` = success. -/
def UnblindOutput (env : Env) (key : Bytes) (nValue : ConfidentialValue)
    (amount_out : CAmount) (blinding_factor_out : Bytes) : Int × CAmount × Bytes :=
  match nValue with
  | .explicitVal a => (-1, a, [])
  | .blinded vchCommitment vchRangeproof vchNonceCommitment =>
    if env.isValidPubKey vchNonceCommitment = false then
      (0, amount_out, blinding_factor_out)
    else
      let nonce_key := env.ecdh key vchNonceCommitment
      let nonce := env.hash256 nonce_key
      match env.rewind vchCommitment vchRangeproof nonce with
      | none => (0, 0, [])
      | some (factor, amount) =>
        if amount > toUInt64 env.maxMoney ∨ env.moneyRange (toInt64 amount) = false then
          (1, 0, [])
        else
          (1, toInt64 amount, factor)

/-- One record per output newly blinded by `BlindOutputs`, recording what
the loop body (`blind.cpp` lines 102-135) did for it: the output index, which
branch produced its blinding factor (`usedSum` = the blind-sum branch of
line 106 rather than the `GetRandBytes` branch of line 109), the factor,
amount, commitment, ephemeral key pair, nonce, the exponent and bit-width
parameters passed to range-proof signing, and the proof. -/
structure BlindTrace where
  idx : Nat
  usedSum : Bool
  factor : Bytes
  amount : CAmount
  commit : Bytes
  ephPriv : Bytes
  ephPub : Bytes
  nonce : Bytes
  exponent : Int
  bits : Int
  proof : Bytes
  deriving DecidableEq, Repr

instance : Inhabited BlindTrace := ⟨⟨0, false, [], 0, [], [], [], [], 0, 0, []⟩⟩

/-- Result of a `BlindOutputs` call.  `ok` carries the final `vout` values
and the per-blinded-output trace; `fatal` models a failed `assert` (process
abort) and carries the `vout` values at the abort point.  (For an abort
inside the mutation loop the C buffer contents of the output being processed
are indeterminate, since the process terminates; the model leaves that
output at its pre-call value.) -/
inductive BlindResult where
  | ok (vout : List ConfidentialValue) (trace : List BlindTrace)
  | fatal (vout : List ConfidentialValue)
  deriving DecidableEq, Repr

/-- The `vout` values carried by a `BlindOutputs` result. -/
def BlindResult.voutOf : BlindResult → List ConfidentialValue
  | .ok vs _ => vs
  | .fatal vs => vs

/-- Input-factor collection loop (`blind.cpp` lines 70-77): skips empty
input blinding factors, asserts each non-empty one has 32 bytes (`none` =
assert failure), and collects them in order.  `nBlindsIn` is the length of
the result. -/
def collectInputBlinds : List Bytes → Option (List Bytes)
  | [] => some []
  | f :: rest =>
    if f.length ≠ 0 then
      if f.length = 32 then (collectInputBlinds rest).map (f :: ·) else none
    else
      collectInputBlinds rest

/-- Output-factor collection loop (`blind.cpp` lines 79-92): for each output
asserts that the supplied factor is non-empty exactly when the output is not
an explicit amount, asserts non-empty factors have 32 bytes, collects the
non-empty factors in order, and counts (`nToBlind`) the explicit outputs
with a valid recipient public key.  Arguments are aligned by position:
`output_blinding_factors`, `tx.vout` values, `output_pubkeys`.  `none` =
assert failure (the mismatched-arity case is unreachable after the length
asserts). -/
def collectOutputBlinds (env : Env) :
    List Bytes → List ConfidentialValue → List Bytes → Option (List Bytes × Nat)
  | [], [], [] => some ([], 0)
  | f :: fs, v :: vs, pk :: pks =>
    if (decide (f.length ≠ 0)) ≠ (! v.IsAmount) then none
    else if f.length ≠ 0 then
      if f.length = 32 then
        (collectOutputBlinds env fs vs pks).map (fun r => (f :: r.1, r.2))
      else none
    else
      (collectOutputBlinds env fs vs pks).map
        (fun r => (r.1, if env.isValidPubKey pk then r.2 + 1 else r.2))
  | _, _, _ => none

/-- The part of the loop body after the blinding factor `b` is chosen
(`blind.cpp` lines 113-134): compute the Pedersen commitment, generate the
ephemeral key and ECDH nonce, clamp the two configuration parameters, and
sign the range proof into a 5134-byte buffer (`secp256k1_rangeproof_sign`
fails if the proof does not fit the buffer, which the `p.length ≤ 5134`
guard models).  Returns the new blinded value, the trace record, and the
updated random-call counter; `none` = a failed library call (assert
failure). -/
def blindOneCore (env : Env) (usedSum : Bool) (b : Bytes) (randCtr' keyCtr idx : Nat)
    (amount : CAmount) (pk : Bytes) : Option (ConfidentialValue × BlindTrace × Nat) :=
  match env.pedersenCommit b amount with
  | none => none
  | some commit =>
    let ephPriv := env.freshKey keyCtr
    let ephPub := env.getPubKey ephPriv
    let nonce := env.hash256 (env.ecdh ephPriv pk)
    let e := min (max (toInt32 ((env.args_ct_exponent).getD 0)) (-1)) 18
    let bi := min (max (toInt32 ((env.args_ct_bits).getD 32)) 1) 51
    match env.rangeproofSign commit b nonce e bi amount with
    | none => none
    | some p =>
      if p.length ≤ 5134 then
        some (.blinded commit p ephPub,
              ⟨idx, usedSum, b, amount, commit, ephPriv, ephPub, nonce, e, bi, p⟩,
              randCtr')
      else none

/-- The choice of blinding factor for one eligible output (`blind.cpp`
lines 104-111): blind-sum over all factors collected so far for the last
to-be-blinded output, fresh random bytes otherwise; then the shared body
`blindOneCore`. -/
def blindOne (env : Env) (nBlindsIn nToBlind : Nat) (blindptrs : List Bytes)
    (nBlinded randCtr keyCtr idx : Nat) (amount : CAmount) (pk : Bytes) :
    Option (ConfidentialValue × BlindTrace × Nat) :=
  if nBlinded + 1 = nToBlind then
    match env.blindSum blindptrs nBlindsIn with
    | none => none
    | some b => blindOneCore env true b randCtr keyCtr idx amount pk
  else
    blindOneCore env false (env.getRandBytes randCtr) (randCtr + 1) keyCtr idx amount pk

/-- The blinding loop (`blind.cpp` lines 101-136) over the remaining
(output value, recipient public key) pairs, threading the collected factor
list `blindptrs`, the processed-to-blind counter `nBlinded`, the counters of
random-byte and key-generation calls, and the absolute index of the first
remaining output. -/
def blindLoop (env : Env) (nBlindsIn nToBlind : Nat) :
    List (ConfidentialValue × Bytes) → List Bytes → Nat → Nat → Nat → Nat → BlindResult
  | [], _, _, _, _, _ => .ok [] []
  | (v, pk) :: rest, blindptrs, nBlinded, randCtr, keyCtr, idx =>
    if v.IsAmount && env.isValidPubKey pk then
      match blindOne env nBlindsIn nToBlind blindptrs nBlinded randCtr keyCtr idx v.GetAmount pk with
      | none => .fatal (v :: rest.map Prod.fst)
      | some (v', t, randCtr') =>
        match blindLoop env nBlindsIn nToBlind rest (blindptrs ++ [t.factor])
            (nBlinded + 1) randCtr' (keyCtr + 1) (idx + 1) with
        | .ok vs ts => .ok (v' :: vs) (t :: ts)
        | .fatal vs => .fatal (v' :: vs)
    else
      match blindLoop env nBlindsIn nToBlind rest blindptrs nBlinded randCtr keyCtr (idx + 1) with
      | .ok vs ts => .ok (v :: vs) ts
      | .fatal vs => .fatal (v :: vs)

/-- `BlindOutputs` (`blind.cpp` lines 61-137).  The three leading length
asserts, the two collection loops with their asserts, and the
confidential-input check all run before the mutation loop; any failure
there aborts with the outputs untouched. -/
def BlindOutputs (env : Env) (input_blinding_factors output_blinding_factors : List Bytes)
    (output_pubkeys : List Bytes) (tx : CMutableTransaction) : BlindResult :=
  if tx.vout.length ≠ output_blinding_factors.length then .fatal tx.vout
  else if tx.vout.length ≠ output_pubkeys.length then .fatal tx.vout
  else if tx.nVin ≠ input_blinding_factors.length then .fatal tx.vout
  else
    match collectInputBlinds input_blinding_factors with
    | none => .fatal tx.vout
    | some inPtrs =>
      match collectOutputBlinds env output_blinding_factors tx.vout output_pubkeys with
      | none => .fatal tx.vout
      | some (outPtrs, nToBlind) =>
        if inPtrs.length ≠ 0 ∧ outPtrs.length + nToBlind = 0 then .fatal tx.vout
        else
          blindLoop env inPtrs.length nToBlind (tx.vout.zip output_pubkeys)
            (inPtrs ++ outPtrs) 0 0 0 0

/-- An output is eligible for new blinding (`blind.cpp` line 102): its value
is an explicit amount and its recipient public key is valid. -/
def eligible (env : Env) (x : ConfidentialValue × Bytes) : Bool :=
  x.1.IsAmount && env.isValidPubKey x.2

/-- The number of outputs eligible for new blinding among aligned
(value, public key) pairs; equals the source's `nToBlind`. -/
def countEligible (env : Env) (l : List (ConfidentialValue × Bytes)) : Nat :=
  l.countP (eligible env)

/-- The fatal preconditions of `BlindOutputs` (spec §4.3), stated over the
call arguments: matching sequence lengths, every non-empty factor exactly
32 bytes, Blinded/Explicit state consistent with the supplied output
factors, and (when some input factor is non-empty) at least one output
pre-blinded or to-be-blinded. -/
def PreOk (env : Env) (ibf obf pks : List Bytes) (tx : CMutableTransaction) : Prop :=
  tx.vout.length = obf.length ∧
  tx.vout.length = pks.length ∧
  tx.nVin = ibf.length ∧
  (∀ f ∈ ibf, f.length = 0 ∨ f.length = 32) ∧
  (∀ i, i < tx.vout.length →
    (((obf.getD i []).length ≠ 0) ↔ (tx.vout.getD i default).IsAmount = false) ∧
    ((obf.getD i []).length = 0 ∨ (obf.getD i []).length = 32)) ∧
  ((∃ f ∈ ibf, f.length ≠ 0) →
    ∃ i, i < tx.vout.length ∧
      ((obf.getD i []).length ≠ 0 ∨ env.isValidPubKey (pks.getD i []) = true))

/-! ## A concrete executable environment

Used to evaluate the embedding on concrete inputs (witnesses and
counterexamples).  The primitives are simple executable stand-ins that
satisfy the library contracts the theorems hypothesise. -/

/-- A 32-byte encoding of an integer scalar: the positive part, the negative
part, then padding. -/
def encodeInt (d : Int) : Bytes := d.toNat :: (-d).toNat :: List.replicate 30 0

/-- The scalar interpretation matching `encodeInt`. -/
def testScalar (b : Bytes) : Int := (b.headD 0 : Int) - (b.getD 1 0 : Int)

/-- A concrete environment: pubkeys are valid iff 33 bytes long, the range
proof is the blinding factor followed by the amount, rewinding inverts that,
and blind-sum really computes the take/drop difference under `testScalar`. -/
def testEnv : Env where
  maxMoney := 2100000000000000
  moneyRange := fun a => decide (0 ≤ a ∧ a ≤ 2100000000000000)
  isValidPubKey := fun b => b.length == 33
  ecdh := fun k p => List.replicate 33 (k.foldl (· + ·) 0 * 2 + p.foldl (· + ·) 0 * 3)
  hash256 := fun b => b.take 32
  rewind := fun _ p _ => if 33 ≤ p.length then some (p.take 32, p.getD 32 0) else none
  blindSum := fun l k =>
    some (encodeInt ((((l.take k).map testScalar).sum) - (((l.drop k).map testScalar).sum)))
  pedersenCommit := fun b a => some (a.toNat :: b)
  rangeproofSign := fun _ b _ _ _ a => some (b ++ [a.toNat])
  getRandBytes := fun k => List.replicate 32 (k + 1)
  freshKey := fun k => List.replicate 32 (k + 7)
  getPubKey := fun b => 2 :: b
  args_ct_exponent := none
  args_ct_bits := none
  scalarOf := testScalar

/-- `testEnv` with configured `-ct_exponent 25` and `-ct_bits 0`. -/
def envC8 : Env := { testEnv with args_ct_exponent := some 25, args_ct_bits := some 0 }

/-- A two-output transaction under construction used by concrete runs: one
confidential input, two explicit outputs of 4 and 6. -/
def txC4 : CMutableTransaction := ⟨1, [.explicitVal 4, .explicitVal 6]⟩

/-- Input blinding factors for the concrete `txC4` run. -/
def ibfC4 : List Bytes := [encodeInt 3]

/-- Output blinding factors for the concrete `txC4` run (none supplied). -/
def obfC4 : List Bytes := [[], []]

/-- Recipient public keys for the concrete `txC4` run. -/
def pksC4 : List Bytes := [List.replicate 33 4, List.replicate 33 4]

/-- The outputs produced by `BlindOutputs testEnv ibfC4 obfC4 pksC4 txC4`. -/
def vsC4 : List ConfidentialValue :=
  [.blinded (4 :: List.replicate 32 1) (List.replicate 32 1 ++ [4]) (2 :: List.replicate 32 7),
   .blinded (6 :: encodeInt 3) (encodeInt 3 ++ [6]) (2 :: List.replicate 32 8)]

/-- The trace produced by `BlindOutputs testEnv ibfC4 obfC4 pksC4 txC4`. -/
def tsC4 : List BlindTrace :=
  [⟨0, false, List.replicate 32 1, 4, 4 :: List.replicate 32 1, List.replicate 32 7,
    2 :: List.replicate 32 7, List.replicate 32 844, 0, 32, List.replicate 32 1 ++ [4]⟩,
   ⟨1, true, encodeInt 3, 6, 6 :: encodeInt 3, List.replicate 32 8,
    2 :: List.replicate 32 8, List.replicate 32 908, 0, 32, encodeInt 3 ++ [6]⟩]

/-- Recipient public key for the single-output concrete runs: the public
key of the private key `testEnv.freshKey 0`, so the ephemeral key of the run
coincides with the recipient key and Diffie-Hellman symmetry is trivial. -/
def pkC3 : Bytes := 2 :: List.replicate 32 7

/-- A single-output transaction with an Explicit amount of 42. -/
def txC3 : CMutableTransaction := ⟨0, [.explicitVal 42]⟩

/-- The outputs produced by `BlindOutputs testEnv [] [[]] [pkC3] txC3`. -/
def vsC3 : List ConfidentialValue :=
  [.blinded (42 :: List.replicate 32 0) (List.replicate 32 0 ++ [42]) (2 :: List.replicate 32 7)]

/-- The trace produced by `BlindOutputs testEnv [] [[]] [pkC3] txC3`. -/
def tC3 : BlindTrace :=
  ⟨0, true, List.replicate 32 0, 42, 42 :: List.replicate 32 0, List.replicate 32 7,
   2 :: List.replicate 32 7, List.replicate 32 1126, 0, 32, List.replicate 32 0 ++ [42]⟩

/-- The outputs of the single-output amount-5 run (same under `testEnv` and
`envC8`, whose primitives ignore the clamped parameters). -/
def vsSingle : List ConfidentialValue :=
  [.blinded (5 :: List.replicate 32 0) (List.replicate 32 0 ++ [5]) (2 :: List.replicate 32 7)]

/-- The trace of the amount-5 run under `envC8` (exponent clamped to 18,
bits clamped to 1). -/
def tsC8 : List BlindTrace :=
  [⟨0, true, List.replicate 32 0, 5, 5 :: List.replicate 32 0, List.replicate 32 7,
    2 :: List.replicate 32 7, List.replicate 32 844, 18, 1, List.replicate 32 0 ++ [5]⟩]

/-- The trace of the amount-5 run under `testEnv` (default exponent 0 and
bits 32). -/
def tsC9 : List BlindTrace :=
  [⟨0, true, List.replicate 32 0, 5, 5 :: List.replicate 32 0, List.replicate 32 7,
    2 :: List.replicate 32 7, List.replicate 32 844, 0, 32, List.replicate 32 0 ++ [5]⟩]

/-! ## Theorems -/

/-- Helper: `testScalar` inverts `encodeInt`, so `testEnv.blindSum`
satisfies the blind-sum library contract. -/
theorem testScalar_encodeInt (d : Int) : testScalar (encodeInt d) = d := by
  simp [testScalar, encodeInt]

/-- Helper: everything `blindOneCore` guarantees about a successful
one-output blinding step. -/
theorem blindOneCore_spec (env : Env) (usedSum : Bool) (b : Bytes)
    (r' kc i : Nat) (amt : CAmount) (pk : Bytes)
    (v' : ConfidentialValue) (t : BlindTrace) (rr : Nat)
    (h : blindOneCore env usedSum b r' kc i amt pk = some (v', t, rr)) :
    v' = .blinded t.commit t.proof t.ephPub ∧
    t.idx = i ∧ t.usedSum = usedSum ∧ t.factor = b ∧ t.amount = amt ∧ rr = r' ∧
    t.ephPriv = env.freshKey kc ∧
    t.ephPub = env.getPubKey t.ephPriv ∧
    t.nonce = env.hash256 (env.ecdh t.ephPriv pk) ∧
    env.pedersenCommit t.factor t.amount = some t.commit ∧
    env.rangeproofSign t.commit t.factor t.nonce t.exponent t.bits t.amount = some t.proof ∧
    t.proof.length ≤ 5134 ∧
    t.exponent = min (max (toInt32 ((env.args_ct_exponent).getD 0)) (-1)) 18 ∧
    t.bits = min (max (toInt32 ((env.args_ct_bits).getD 32)) 1) 51 := by
  simp only [blindOneCore] at h
  split at h
  · exact absurd h (by simp)
  · rename_i commit hpc
    split at h
    · exact absurd h (by simp)
    · rename_i p hsig
      split at h
      · rename_i hlen
        cases h
        refine ⟨rfl, rfl, rfl, rfl, rfl, rfl, rfl, rfl, rfl, ?_, ?_, hlen, rfl, rfl⟩
        · exact hpc
        · exact hsig
      · exact absurd h (by simp)

/-- Helper: everything `blindOne` guarantees about a successful one-output
blinding step, including the provenance of the blinding factor (blind-sum
for the last to-be-blinded output, the random source otherwise). -/
theorem blindOne_spec (env : Env) (nIn nTB : Nat) (ptrs : List Bytes)
    (k r kc i : Nat) (amt : CAmount) (pk : Bytes)
    (v' : ConfidentialValue) (t : BlindTrace) (r' : Nat)
    (h : blindOne env nIn nTB ptrs k r kc i amt pk = some (v', t, r')) :
    v' = .blinded t.commit t.proof t.ephPub ∧
    t.idx = i ∧ t.amount = amt ∧
    t.usedSum = decide (k + 1 = nTB) ∧
    t.ephPriv = env.freshKey kc ∧
    t.ephPub = env.getPubKey t.ephPriv ∧
    t.nonce = env.hash256 (env.ecdh t.ephPriv pk) ∧
    env.pedersenCommit t.factor t.amount = some t.commit ∧
    env.rangeproofSign t.commit t.factor t.nonce t.exponent t.bits t.amount = some t.proof ∧
    t.proof.length ≤ 5134 ∧
    t.exponent = min (max (toInt32 ((env.args_ct_exponent).getD 0)) (-1)) 18 ∧
    t.bits = min (max (toInt32 ((env.args_ct_bits).getD 32)) 1) 51 ∧
    (k + 1 = nTB → env.blindSum ptrs nIn = some t.factor ∧ r' = r) ∧
    (k + 1 ≠ nTB → t.factor = env.getRandBytes r ∧ r' = r + 1) := by
  simp only [blindOne] at h
  by_cases hk : k + 1 = nTB
  · rw [if_pos hk] at h
    split at h
    · exact absurd h (by simp)
    · rename_i b hbs
      have hs := blindOneCore_spec env true b r kc i amt pk v' t r' h
      obtain ⟨h1, h2, h3, h4, h5, h6, h7, h8, h9, h10, h11, h12, h13, h14⟩ := hs
      refine ⟨h1, h2, h5, by simp [h3, hk], h7, h8, h9, h10, h11, h12, h13, h14,
        fun _ => ⟨by rw [h4, hbs], h6⟩, fun hcon => absurd hk hcon⟩
  · rw [if_neg hk] at h
    have hs := blindOneCore_spec env false (env.getRandBytes r) (r + 1) kc i amt pk v' t r' h
    obtain ⟨h1, h2, h3, h4, h5, h6, h7, h8, h9, h10, h11, h12, h13, h14⟩ := hs
    refine ⟨h1, h2, h5, by simp [h3, hk], h7, h8, h9, h10, h11, h12, h13, h14,
      fun hcon => absurd hcon hk, fun _ => ⟨h4, h6⟩⟩

/-- Helper: `getD` through `map Prod.fst` with matching defaults. -/
theorem getD_map_fst (l : List (ConfidentialValue × Bytes)) (j : Nat) :
    (l.map Prod.fst).getD j default = (l.getD j default).1 := by
  induction l generalizing j with
  | nil => rfl
  | cons x xs ih =>
    cases j with
    | zero => rfl
    | succ j' =>
      simp only [List.map_cons, List.getD_cons_succ]
      exact ih j'

/-- Helper: `getD` through `zip` with matching defaults, in range. -/
theorem zip_getD (l : List ConfidentialValue) (m : List Bytes) (j : Nat)
    (hj : j < l.length) (hlen : l.length = m.length) :
    (l.zip m).getD j default = (l.getD j default, m.getD j []) := by
  induction l generalizing m j with
  | nil => simp at hj
  | cons x xs ih =>
    cases m with
    | nil => simp at hlen
    | cons y ys =>
      cases j with
      | zero => rfl
      | succ j' =>
        have hj' : j' < xs.length := by simpa using hj
        have hlen' : xs.length = ys.length := by simpa using hlen
        simpa [List.getD] using ih ys j' hj' hlen'

/-- Helper: the loop preserves the number of outputs. -/
theorem blindLoop_len (env : Env) (nIn nTB : Nat)
    (pairs : List (ConfidentialValue × Bytes)) :
    ∀ (ptrs : List Bytes) (k r kc i : Nat),
      (blindLoop env nIn nTB pairs ptrs k r kc i).voutOf.length = pairs.length := by
  induction pairs with
  | nil => intro ptrs k r kc i; rfl
  | cons x rest ih =>
    intro ptrs k r kc i
    obtain ⟨v, pk⟩ := x
    simp only [blindLoop]
    split
    · split
      · simp [BlindResult.voutOf]
      · rename_i v' t r' heq
        have ihr := ih (ptrs ++ [t.factor]) (k + 1) r' (kc + 1) (i + 1)
        cases hrec : blindLoop env nIn nTB rest (ptrs ++ [t.factor]) (k + 1) r' (kc + 1) (i + 1) with
        | ok vs ts => rw [hrec] at ihr; simp_all [BlindResult.voutOf]
        | fatal vs => rw [hrec] at ihr; simp_all [BlindResult.voutOf]
    · have ihr := ih ptrs k r kc (i + 1)
      cases hrec : blindLoop env nIn nTB rest ptrs k r kc (i + 1) with
      | ok vs ts => rw [hrec] at ihr; simp_all [BlindResult.voutOf]
      | fatal vs => rw [hrec] at ihr; simp_all [BlindResult.voutOf]

/-- Helper: the loop never rewrites an ineligible output — already-Blinded
outputs and Explicit outputs without a valid recipient key pass through
unchanged, in completed and aborted runs alike. -/
theorem blindLoop_frame (env : Env) (nIn nTB : Nat)
    (pairs : List (ConfidentialValue × Bytes)) :
    ∀ (ptrs : List Bytes) (k r kc i j : Nat),
      j < pairs.length → eligible env (pairs.getD j default) = false →
      (blindLoop env nIn nTB pairs ptrs k r kc i).voutOf.getD j default =
        (pairs.getD j default).1 := by
  induction pairs with
  | nil => intro ptrs k r kc i j hj; simp at hj
  | cons x rest ih =>
    intro ptrs k r kc i j hj hin
    obtain ⟨v, pk⟩ := x
    simp only [blindLoop]
    split
    · rename_i he
      cases j with
      | zero => simp [eligible, he] at hin
      | succ j' =>
        have hj' : j' < rest.length := by simpa using hj
        have hin' : eligible env (rest.getD j' default) = false := by
          simpa [List.getD_cons_succ] using hin
        split
        · simp only [BlindResult.voutOf, List.getD_cons_succ]
          exact getD_map_fst rest j'
        · rename_i v' t r' heq
          have ihr := ih (ptrs ++ [t.factor]) (k + 1) r' (kc + 1) (i + 1) j' hj' hin'
          cases hrec : blindLoop env nIn nTB rest (ptrs ++ [t.factor]) (k + 1) r' (kc + 1) (i + 1) with
          | ok vs ts =>
            rw [hrec] at ihr
            simpa [BlindResult.voutOf, List.getD_cons_succ] using ihr
          | fatal vs =>
            rw [hrec] at ihr
            simpa [BlindResult.voutOf, List.getD_cons_succ] using ihr
    · cases j with
      | zero =>
        cases hrec : blindLoop env nIn nTB rest ptrs k r kc (i + 1) with
        | ok vs ts => simp [BlindResult.voutOf]
        | fatal vs => simp [BlindResult.voutOf]
      | succ j' =>
        have hj' : j' < rest.length := by simpa using hj
        have hin' : eligible env (rest.getD j' default) = false := by
          simpa [List.getD_cons_succ] using hin
        have ihr := ih ptrs k r kc (i + 1) j' hj' hin'
        cases hrec : blindLoop env nIn nTB rest ptrs k r kc (i + 1) with
        | ok vs ts =>
          rw [hrec] at ihr
          simpa [BlindResult.voutOf, List.getD_cons_succ] using ihr
        | fatal vs =>
          rw [hrec] at ihr
          simpa [BlindResult.voutOf, List.getD_cons_succ] using ihr

/-- Helper: trace soundness of the blinding loop.  Every trace record of a
completed run describes an output that was Explicit before the loop and is
afterwards the Blinded value built from that record's commitment, proof and
ephemeral public key, with the record's fields produced by the library calls
the loop makes. -/
theorem blindLoop_trace (env : Env) (nIn nTB : Nat)
    (pairs : List (ConfidentialValue × Bytes)) :
    ∀ (ptrs : List Bytes) (k r kc i : Nat) (vs : List ConfidentialValue)
      (ts : List BlindTrace),
      blindLoop env nIn nTB pairs ptrs k r kc i = .ok vs ts →
      ∀ t ∈ ts, ∃ j, j < pairs.length ∧ t.idx = i + j ∧
        (pairs.getD j default).1 = .explicitVal t.amount ∧
        vs.getD j default = .blinded t.commit t.proof t.ephPub ∧
        t.ephPub = env.getPubKey t.ephPriv ∧
        t.nonce = env.hash256 (env.ecdh t.ephPriv (pairs.getD j default).2) ∧
        env.pedersenCommit t.factor t.amount = some t.commit ∧
        env.rangeproofSign t.commit t.factor t.nonce t.exponent t.bits t.amount = some t.proof ∧
        t.proof.length ≤ 5134 ∧
        t.exponent = min (max (toInt32 ((env.args_ct_exponent).getD 0)) (-1)) 18 ∧
        t.bits = min (max (toInt32 ((env.args_ct_bits).getD 32)) 1) 51 := by
  induction pairs with
  | nil =>
    intro ptrs k r kc i vs ts h t ht
    simp only [blindLoop] at h
    cases h
    simp at ht
  | cons x rest ih =>
    intro ptrs k r kc i vs ts h t ht
    obtain ⟨v, pk⟩ := x
    simp only [blindLoop] at h
    split at h
    · rename_i he
      split at h
      · exact absurd h (by simp)
      · rename_i v' t0 r' heq
        split at h
        · rename_i vs1 ts1 hrec
          cases h
          have hs := blindOne_spec env nIn nTB ptrs k r kc i v.GetAmount pk v' t0 r' heq
          obtain ⟨hv', hidx, hamt, _, _, hpub, hnon, hpc, hsig, hplen, hexp, hbits, _, _⟩ := hs
          rcases List.mem_cons.mp ht with rfl | ht1
          · refine ⟨0, by simp, by simpa using hidx.symm ▸ rfl, ?_, ?_, hpub, ?_, hpc, hsig,
              hplen, hexp, hbits⟩
            · have hA : v.IsAmount = true := by
                have he' := he
                simp only [Bool.and_eq_true] at he'
                exact he'.1
              cases v with
              | explicitVal a =>
                simp only [List.getD_cons_zero]
                rw [hamt]
                rfl
              | blinded c p nc => simp [ConfidentialValue.IsAmount] at hA
            · simp only [List.getD_cons_zero]
              exact hv'
            · simpa only [List.getD_cons_zero] using hnon
          · obtain ⟨j, hj, hidx1, hv1, hvs1, hpub1, hnon1, hpc1, hsig1, hplen1, hexp1, hbits1⟩ :=
              ih (ptrs ++ [t0.factor]) (k + 1) r' (kc + 1) (i + 1) vs1 ts1 hrec t ht1
            refine ⟨j + 1, by simpa using hj, by omega, ?_, ?_, hpub1, ?_, hpc1, hsig1,
              hplen1, hexp1, hbits1⟩
            · simpa only [List.getD_cons_succ] using hv1
            · simpa only [List.getD_cons_succ] using hvs1
            · simpa only [List.getD_cons_succ] using hnon1
        · exact absurd h (by simp)
    · split at h
      · rename_i vs1 ts1 hrec
        cases h
        obtain ⟨j, hj, hidx1, hv1, hvs1, hpub1, hnon1, hpc1, hsig1, hplen1, hexp1, hbits1⟩ :=
          ih ptrs k r kc (i + 1) vs1 ts hrec t ht
        refine ⟨j + 1, by simpa using hj, by omega, ?_, ?_, hpub1, ?_, hpc1, hsig1,
          hplen1, hexp1, hbits1⟩
        · simpa only [List.getD_cons_succ] using hv1
        · simpa only [List.getD_cons_succ] using hvs1
        · simpa only [List.getD_cons_succ] using hnon1
      · exact absurd h (by simp)

/-- Helper: `countEligible` over a cons with an eligible head. -/
theorem countEligible_cons_of_pos (env : Env) (x : ConfidentialValue × Bytes)
    (l : List (ConfidentialValue × Bytes)) (h : eligible env x = true) :
    countEligible env (x :: l) = countEligible env l + 1 := by
  simp [countEligible, List.countP_cons, h]

/-- Helper: `countEligible` over a cons with an ineligible head. -/
theorem countEligible_cons_of_neg (env : Env) (x : ConfidentialValue × Bytes)
    (l : List (ConfidentialValue × Bytes)) (h : eligible env x = false) :
    countEligible env (x :: l) = countEligible env l := by
  simp [countEligible, List.countP_cons, h]

/-- Helper: the loop's eligibility test, packaged as `eligible`. -/
theorem eligible_false_of_cond {env : Env} {v : ConfidentialValue} {pk : Bytes}
    (h : ¬((v.IsAmount && env.isValidPubKey pk) = true)) :
    eligible env (v, pk) = false := by
  simp only [eligible]
  simpa using h

/-- Helper: a completed loop produces one trace record per eligible
output. -/
theorem blindLoop_count (env : Env) (nIn nTB : Nat)
    (pairs : List (ConfidentialValue × Bytes)) :
    ∀ (ptrs : List Bytes) (k r kc i : Nat) (vs : List ConfidentialValue)
      (ts : List BlindTrace),
      blindLoop env nIn nTB pairs ptrs k r kc i = .ok vs ts →
      ts.length = countEligible env pairs := by
  induction pairs with
  | nil =>
    intro ptrs k r kc i vs ts h
    cases h
    rfl
  | cons x rest ih =>
    intro ptrs k r kc i vs ts h
    obtain ⟨v, pk⟩ := x
    simp only [blindLoop] at h
    split at h
    · rename_i he
      split at h
      · exact absurd h (by simp)
      · rename_i v' t0 r' heq
        split at h
        · rename_i vs1 ts1 hrec
          cases h
          have hlen := ih (ptrs ++ [t0.factor]) (k + 1) r' (kc + 1) (i + 1) vs1 ts1 hrec
          have hel : eligible env (v, pk) = true := he
          rw [countEligible_cons_of_pos env (v, pk) rest hel, List.length_cons, hlen]
        · exact absurd h (by simp)
    · rename_i he
      split at h
      · rename_i vs1 ts1 hrec
        cases h
        have hel : eligible env (v, pk) = false := eligible_false_of_cond he
        rw [countEligible_cons_of_neg env (v, pk) rest hel]
        exact ih ptrs k r kc (i + 1) vs1 ts hrec
      · exact absurd h (by simp)

/-- Helper: in a completed loop run that starts with `k` to-be-blinded
outputs already processed and will process all remaining ones, the trace
record at position `j` used the blind-sum branch exactly when it was the
last to-be-blinded output overall. -/
theorem blindLoop_usedSum (env : Env) (nIn nTB : Nat)
    (pairs : List (ConfidentialValue × Bytes)) :
    ∀ (ptrs : List Bytes) (k r kc i : Nat) (vs : List ConfidentialValue)
      (ts : List BlindTrace),
      blindLoop env nIn nTB pairs ptrs k r kc i = .ok vs ts →
      k + countEligible env pairs = nTB →
      ∀ j, j < ts.length → (ts.getD j default).usedSum = decide (k + j + 1 = nTB) := by
  induction pairs with
  | nil =>
    intro ptrs k r kc i vs ts h hinv j hj
    cases h
    simp at hj
  | cons x rest ih =>
    intro ptrs k r kc i vs ts h hinv j hj
    obtain ⟨v, pk⟩ := x
    simp only [blindLoop] at h
    split at h
    · rename_i he
      split at h
      · exact absurd h (by simp)
      · rename_i v' t0 r' heq
        split at h
        · rename_i vs1 ts1 hrec
          cases h
          have hel : eligible env (v, pk) = true := he
          rw [countEligible_cons_of_pos env (v, pk) rest hel] at hinv
          have hinv' : (k + 1) + countEligible env rest = nTB := by omega
          obtain ⟨_, _, _, hused, _⟩ :=
            blindOne_spec env nIn nTB ptrs k r kc i v.GetAmount pk v' t0 r' heq
          cases j with
          | zero => simpa using hused
          | succ j' =>
            have hj' : j' < ts1.length := by simpa using hj
            have hrec' := ih (ptrs ++ [t0.factor]) (k + 1) r' (kc + 1) (i + 1) vs1 ts1
              hrec hinv' j' hj'
            have harith : k + 1 + j' + 1 = k + (j' + 1) + 1 := by omega
            rw [List.getD_cons_succ, hrec', harith]
        · exact absurd h (by simp)
    · rename_i he
      split at h
      · rename_i vs1 ts1 hrec
        cases h
        have hel : eligible env (v, pk) = false := eligible_false_of_cond he
        rw [countEligible_cons_of_neg env (v, pk) rest hel] at hinv
        exact ih ptrs k r kc (i + 1) vs1 ts hrec hinv j hj
      · exact absurd h (by simp)

/-- Helper: every trace record's output index is at least the loop's
starting index. -/
theorem blindLoop_idx_lb (env : Env) (nIn nTB : Nat)
    (pairs : List (ConfidentialValue × Bytes)) :
    ∀ (ptrs : List Bytes) (k r kc i : Nat) (vs : List ConfidentialValue)
      (ts : List BlindTrace),
      blindLoop env nIn nTB pairs ptrs k r kc i = .ok vs ts →
      ∀ t ∈ ts, i ≤ t.idx := by
  induction pairs with
  | nil =>
    intro ptrs k r kc i vs ts h t ht
    cases h
    simp at ht
  | cons x rest ih =>
    intro ptrs k r kc i vs ts h t ht
    obtain ⟨v, pk⟩ := x
    simp only [blindLoop] at h
    split at h
    · split at h
      · exact absurd h (by simp)
      · rename_i v' t0 r' heq
        split at h
        · rename_i vs1 ts1 hrec
          cases h
          obtain ⟨_, hidx, _⟩ :=
            blindOne_spec env nIn nTB ptrs k r kc i v.GetAmount pk v' t0 r' heq
          rcases List.mem_cons.mp ht with rfl | ht1
          · omega
          · have := ih (ptrs ++ [t0.factor]) (k + 1) r' (kc + 1) (i + 1) vs1 ts1 hrec t ht1
            omega
        · exact absurd h (by simp)
    · split at h
      · rename_i vs1 ts1 hrec
        cases h
        have := ih ptrs k r kc (i + 1) vs1 ts hrec t ht
        omega
      · exact absurd h (by simp)

/-- Helper: the trace record produced by the blind-sum branch has the
largest output index in the trace — it is the last output needing a new
factor in ascending output order. -/
theorem blindLoop_sum_last (env : Env) (nIn nTB : Nat)
    (pairs : List (ConfidentialValue × Bytes)) :
    ∀ (ptrs : List Bytes) (k r kc i : Nat) (vs : List ConfidentialValue)
      (ts : List BlindTrace),
      blindLoop env nIn nTB pairs ptrs k r kc i = .ok vs ts →
      k + countEligible env pairs = nTB →
      ∀ t ∈ ts, t.usedSum = true → ∀ u ∈ ts, u.idx ≤ t.idx := by
  induction pairs with
  | nil =>
    intro ptrs k r kc i vs ts h hinv t ht
    cases h
    simp at ht
  | cons x rest ih =>
    intro ptrs k r kc i vs ts h hinv t ht htu u hu
    obtain ⟨v, pk⟩ := x
    simp only [blindLoop] at h
    split at h
    · rename_i he
      split at h
      · exact absurd h (by simp)
      · rename_i v' t0 r' heq
        split at h
        · rename_i vs1 ts1 hrec
          cases h
          have hel : eligible env (v, pk) = true := he
          rw [countEligible_cons_of_pos env (v, pk) rest hel] at hinv
          have hinv' : (k + 1) + countEligible env rest = nTB := by omega
          obtain ⟨_, hidx, _, hused, _⟩ :=
            blindOne_spec env nIn nTB ptrs k r kc i v.GetAmount pk v' t0 r' heq
          rcases List.mem_cons.mp ht with rfl | ht1
          · have hk1 : k + 1 = nTB := by
              rw [hused] at htu
              simpa using htu
            have hce : countEligible env rest = 0 := by omega
            have hlen : ts1.length = 0 :=
              (blindLoop_count env nIn nTB rest (ptrs ++ [t.factor]) (k + 1) r'
                (kc + 1) (i + 1) vs1 ts1 hrec).trans hce
            rcases List.mem_cons.mp hu with rfl | hu1
            · exact le_refl _
            · rw [List.length_eq_zero.mp hlen] at hu1
              simp at hu1
          · rcases List.mem_cons.mp hu with rfl | hu1
            · have hlb := blindLoop_idx_lb env nIn nTB rest (ptrs ++ [u.factor]) (k + 1) r'
                (kc + 1) (i + 1) vs1 ts1 hrec t ht1
              omega
            · exact ih (ptrs ++ [t0.factor]) (k + 1) r' (kc + 1) (i + 1) vs1 ts1 hrec
                hinv' t ht1 htu u hu1
        · exact absurd h (by simp)
    · rename_i he
      split at h
      · rename_i vs1 ts1 hrec
        cases h
        have hel : eligible env (v, pk) = false := eligible_false_of_cond he
        rw [countEligible_cons_of_neg env (v, pk) rest hel] at hinv
        exact ih ptrs k r kc (i + 1) vs1 ts hrec hinv t ht htu u hu
      · exact absurd h (by simp)

/-- Helper: the blind-sum library contract propagated through the loop —
if `blindSum` returns the take/drop scalar difference of its argument list,
then a completed run that blinds at least one output makes the output-factor
scalars (the entries of `ptrs` after the first `nIn`, plus all newly
generated factors) sum to the input-factor scalars (the first `nIn` entries
of `ptrs`). -/
theorem blindLoop_sum (env : Env) (nIn nTB : Nat)
    (hsum : ∀ (l : List Bytes) (n : Nat) (b : Bytes), env.blindSum l n = some b →
      env.scalarOf b = ((l.take n).map env.scalarOf).sum - ((l.drop n).map env.scalarOf).sum)
    (pairs : List (ConfidentialValue × Bytes)) :
    ∀ (ptrs : List Bytes) (k r kc i : Nat) (vs : List ConfidentialValue)
      (ts : List BlindTrace),
      blindLoop env nIn nTB pairs ptrs k r kc i = .ok vs ts →
      nIn ≤ ptrs.length →
      k + countEligible env pairs = nTB →
      0 < countEligible env pairs →
      ((ptrs.drop nIn).map env.scalarOf).sum + (ts.map (fun t => env.scalarOf t.factor)).sum
        = ((ptrs.take nIn).map env.scalarOf).sum := by
  induction pairs with
  | nil =>
    intro ptrs k r kc i vs ts h hle hinv hpos
    simp [countEligible] at hpos
  | cons x rest ih =>
    intro ptrs k r kc i vs ts h hle hinv hpos
    obtain ⟨v, pk⟩ := x
    simp only [blindLoop] at h
    split at h
    · rename_i he
      split at h
      · exact absurd h (by simp)
      · rename_i v' t0 r' heq
        split at h
        · rename_i vs1 ts1 hrec
          cases h
          have hel : eligible env (v, pk) = true := he
          rw [countEligible_cons_of_pos env (v, pk) rest hel] at hinv
          obtain ⟨_, _, _, _, _, _, _, _, _, _, _, _, hsumb, hrandb⟩ :=
            blindOne_spec env nIn nTB ptrs k r kc i v.GetAmount pk v' t0 r' heq
          by_cases hk : k + 1 = nTB
          · obtain ⟨hbs, _⟩ := hsumb hk
            have hce : countEligible env rest = 0 := by omega
            have hlen : ts1.length = 0 :=
              (blindLoop_count env nIn nTB rest (ptrs ++ [t0.factor]) (k + 1) r'
                (kc + 1) (i + 1) vs1 ts1 hrec).trans hce
            rw [List.length_eq_zero.mp hlen]
            have hscal := hsum ptrs nIn t0.factor hbs
            simp only [List.map_cons, List.sum_cons, List.map_nil, List.sum_nil]
            omega
          · have hcepos : 0 < countEligible env rest := by omega
            have hinv' : (k + 1) + countEligible env rest = nTB := by omega
            have hle' : nIn ≤ (ptrs ++ [t0.factor]).length := by
              rw [List.length_append]
              omega
            have hrec' := ih (ptrs ++ [t0.factor]) (k + 1) r' (kc + 1) (i + 1) vs1 ts1 hrec
              hle' hinv' hcepos
            rw [List.take_append_of_le_length hle, List.drop_append_of_le_length hle] at hrec'
            simp only [List.map_append, List.sum_append, List.map_cons, List.sum_cons,
              List.map_nil, List.sum_nil] at hrec' ⊢
            omega
        · exact absurd h (by simp)
    · rename_i he
      split at h
      · rename_i vs1 ts1 hrec
        cases h
        have hel : eligible env (v, pk) = false := eligible_false_of_cond he
        rw [countEligible_cons_of_neg env (v, pk) rest hel] at hinv hpos
        exact ih ptrs k r kc (i + 1) vs1 ts hrec hle hinv hpos
      · exact absurd h (by simp)

/-- Helper: a successful input-collection pass returns exactly the
non-empty input factors, in order, and certifies they are all 32 bytes. -/
theorem collectInputBlinds_some (ibf : List Bytes) :
    ∀ l, collectInputBlinds ibf = some l →
      l = ibf.filter (fun f => f.length != 0) ∧
      ∀ f ∈ ibf, f.length = 0 ∨ f.length = 32 := by
  induction ibf with
  | nil =>
    intro l h
    cases h
    exact ⟨rfl, by simp⟩
  | cons f rest ih =>
    intro l h
    simp only [collectInputBlinds] at h
    split at h
    · rename_i hne
      split at h
      · rename_i h32
        cases hrec : collectInputBlinds rest with
        | none => rw [hrec] at h; cases h
        | some l1 =>
          rw [hrec] at h
          simp only [Option.map_some'] at h
          cases h
          obtain ⟨hfil, hall⟩ := ih l1 hrec
          constructor
          · have hb : (f.length != 0) = true := by simpa using hne
            rw [List.filter_cons, if_pos hb, hfil]
          · intro g hg
            rcases List.mem_cons.mp hg with rfl | hg1
            · exact Or.inr h32
            · exact hall g hg1
      · cases h
    · rename_i hne
      have h0 : f.length = 0 := not_ne_iff.mp hne
      obtain ⟨hfil, hall⟩ := ih l h
      constructor
      · rw [List.filter_cons, if_neg (by simp [h0])]
        exact hfil
      · intro g hg
        rcases List.mem_cons.mp hg with rfl | hg1
        · exact Or.inl h0
        · exact hall g hg1

/-- Helper: a successful output-collection pass returns exactly the
non-empty caller-supplied output factors, in order, and counts exactly the
outputs eligible for new blinding. -/
theorem collectOutputBlinds_some (env : Env) (obf : List Bytes)
    (vout : List ConfidentialValue) (pks : List Bytes) :
    ∀ l n, collectOutputBlinds env obf vout pks = some (l, n) →
      l = obf.filter (fun f => f.length != 0) ∧
      n = countEligible env (vout.zip pks) := by
  induction obf generalizing vout pks with
  | nil =>
    intro l n h
    cases vout with
    | nil =>
      cases pks with
      | nil =>
        cases h
        exact ⟨rfl, rfl⟩
      | cons p ps => exact absurd h (by simp [collectOutputBlinds])
    | cons v vs => exact absurd h (by cases pks <;> simp [collectOutputBlinds])
  | cons f fs ih =>
    intro l n h
    cases vout with
    | nil => exact absurd h (by cases pks <;> simp [collectOutputBlinds])
    | cons v vs =>
      cases pks with
      | nil => exact absurd h (by simp [collectOutputBlinds])
      | cons pk ps =>
        simp only [collectOutputBlinds] at h
        split at h
        · cases h
        · rename_i hcons
          have hdec : decide (f.length ≠ 0) = !v.IsAmount := not_ne_iff.mp hcons
          split at h
          · rename_i hne
            split at h
            · rename_i h32
              cases hrec : collectOutputBlinds env fs vs ps with
              | none => rw [hrec] at h; cases h
              | some r1 =>
                rw [hrec] at h
                simp only [Option.map_some'] at h
                cases h
                obtain ⟨hfil, hcount⟩ := ih vs ps r1.1 r1.2 (by rw [hrec])
                have hIsAm : v.IsAmount = false := by
                  cases hb : v.IsAmount
                  · rfl
                  · rw [hb] at hdec
                    rw [decide_eq_true hne] at hdec
                    simp at hdec
                constructor
                · have hb : (f.length != 0) = true := by simpa using hne
                  rw [List.filter_cons, if_pos hb, hfil]
                · rw [List.zip_cons_cons]
                  have hel : eligible env (v, pk) = false := by
                    simp [eligible, hIsAm]
                  rw [countEligible_cons_of_neg env (v, pk) (vs.zip ps) hel]
                  exact hcount
            · cases h
          · rename_i hne
            have h0 : f.length = 0 := not_ne_iff.mp hne
            have hIsAm : v.IsAmount = true := by
              cases hb : v.IsAmount
              · rw [hb] at hdec
                rw [decide_eq_false hne] at hdec
                simp at hdec
              · rfl
            cases hrec : collectOutputBlinds env fs vs ps with
            | none => rw [hrec] at h; cases h
            | some r1 =>
              rw [hrec] at h
              simp only [Option.map_some'] at h
              cases h
              obtain ⟨hfil, hcount⟩ := ih vs ps r1.1 r1.2 (by rw [hrec])
              constructor
              · rw [List.filter_cons, if_neg (by simp [h0])]
                exact hfil
              · rw [List.zip_cons_cons]
                by_cases hv : env.isValidPubKey pk = true
                · have hel : eligible env (v, pk) = true := by
                    simp [eligible, hIsAm, hv]
                  rw [countEligible_cons_of_pos env (v, pk) (vs.zip ps) hel, if_pos hv, hcount]
                · have hvf : env.isValidPubKey pk = false := by
                    cases hb : env.isValidPubKey pk
                    · rfl
                    · exact absurd hb hv
                  have hel : eligible env (v, pk) = false := by
                    simp [eligible, hvf]
                  rw [countEligible_cons_of_neg env (v, pk) (vs.zip ps) hel, if_neg hv, hcount]

/-- Helper: list membership yields an in-range `getD` index. -/
theorem mem_imp_getD {α : Type _} (a : α) (l : List α) (d : α) (h : a ∈ l) :
    ∃ i, i < l.length ∧ l.getD i d = a := by
  induction l with
  | nil => simp at h
  | cons x xs ih =>
    rcases List.mem_cons.mp h with rfl | h1
    · exact ⟨0, by simp, rfl⟩
    · obtain ⟨i, hi, hg⟩ := ih h1
      refine ⟨i + 1, by simpa using hi, ?_⟩
      simpa [List.getD_cons_succ] using hg

/-- Helper: a successful output-collection pass certifies, for every output
index, the Blinded/Explicit-versus-supplied-factor consistency and the
0-or-32-byte length invariant. -/
theorem collectOutputBlinds_forall (env : Env) (obf : List Bytes)
    (vout : List ConfidentialValue) (pks : List Bytes) :
    ∀ l n, collectOutputBlinds env obf vout pks = some (l, n) →
      ∀ i, i < vout.length →
        (((obf.getD i []).length ≠ 0) ↔ (vout.getD i default).IsAmount = false) ∧
        ((obf.getD i []).length = 0 ∨ (obf.getD i []).length = 32) := by
  induction obf generalizing vout pks with
  | nil =>
    intro l n h i hi
    cases vout with
    | nil => simp at hi
    | cons v vs => exact absurd h (by cases pks <;> simp [collectOutputBlinds])
  | cons f fs ih =>
    intro l n h i hi
    cases vout with
    | nil => simp at hi
    | cons v vs =>
      cases pks with
      | nil => exact absurd h (by simp [collectOutputBlinds])
      | cons pk ps =>
        simp only [collectOutputBlinds] at h
        split at h
        · cases h
        · rename_i hcons
          have hdec : decide (f.length ≠ 0) = !v.IsAmount := not_ne_iff.mp hcons
          have hiff : (f.length ≠ 0) ↔ v.IsAmount = false := by
            cases hb : v.IsAmount
            · rw [hb] at hdec
              exact iff_of_true (of_decide_eq_true (by simpa using hdec)) rfl
            · rw [hb] at hdec
              exact iff_of_false (of_decide_eq_false (by simpa using hdec)) (by simp)
          split at h
          · rename_i hne
            split at h
            · rename_i h32
              cases hrec : collectOutputBlinds env fs vs ps with
              | none => rw [hrec] at h; cases h
              | some r1 =>
                have ihh := ih vs ps r1.1 r1.2 (by rw [hrec])
                cases i with
                | zero => exact ⟨by simpa using hiff, Or.inr (by simpa using h32)⟩
                | succ i' =>
                  have hi' : i' < vs.length := by simpa using hi
                  simpa [List.getD_cons_succ] using ihh i' hi'
            · cases h
          · rename_i hne
            have h0 : f.length = 0 := not_ne_iff.mp hne
            cases hrec : collectOutputBlinds env fs vs ps with
            | none => rw [hrec] at h; cases h
            | some r1 =>
              have ihh := ih vs ps r1.1 r1.2 (by rw [hrec])
              cases i with
              | zero => exact ⟨by simpa using hiff, Or.inl (by simpa using h0)⟩
              | succ i' =>
                have hi' : i' < vs.length := by simpa using hi
                simpa [List.getD_cons_succ] using ihh i' hi'

/-- Helper: inversion of a completed `BlindOutputs` call into its
pre-checks, collected factor lists, and the loop run. -/
theorem BlindOutputs_ok_inv (env : Env) (ibf obf pks : List Bytes)
    (tx : CMutableTransaction) (vs : List ConfidentialValue) (ts : List BlindTrace)
    (h : BlindOutputs env ibf obf pks tx = .ok vs ts) :
    tx.vout.length = obf.length ∧ tx.vout.length = pks.length ∧ tx.nVin = ibf.length ∧
    ∃ inPtrs outPtrs nTB,
      collectInputBlinds ibf = some inPtrs ∧
      collectOutputBlinds env obf tx.vout pks = some (outPtrs, nTB) ∧
      ¬(inPtrs.length ≠ 0 ∧ outPtrs.length + nTB = 0) ∧
      blindLoop env inPtrs.length nTB (tx.vout.zip pks) (inPtrs ++ outPtrs) 0 0 0 0 = .ok vs ts := by
  unfold BlindOutputs at h
  split at h
  · exact absurd h (by simp)
  split at h
  · exact absurd h (by simp)
  rename_i h1 h2
  split at h
  · exact absurd h (by simp)
  rename_i h3
  split at h
  · exact absurd h (by simp)
  rename_i inPtrs hc1
  split at h
  · exact absurd h (by simp)
  rename_i outPtrs nTB hc2
  split at h
  · exact absurd h (by simp)
  rename_i hc3
  exact ⟨not_not.mp h1, not_not.mp h2, not_not.mp h3,
    inPtrs, outPtrs, nTB, hc1, hc2, hc3, h⟩

/-- C8: in every completed `BlindOutputs` call, the exponent passed to
range-proof signing is the configured `-ct_exponent` value (default `0`,
truncated to `int` as the source casts it) clamped to `[-1, 18]`, and the
bit-width is the configured `-ct_bits` value (default `32`, likewise
truncated) clamped to `[1, 51]`; the truncation is the identity on `int`
range, and in particular configured `25`, `-5` clamp to `18`, `-1` and
configured `0`, `100` clamp to `1`, `51`. -/
theorem blind_outputs_param_clamping (env : Env) (ibf obf pks : List Bytes)
    (tx : CMutableTransaction) (vs : List ConfidentialValue) (ts : List BlindTrace)
    (h : BlindOutputs env ibf obf pks tx = .ok vs ts) :
    (∀ t ∈ ts,
      t.exponent = min (max (toInt32 ((env.args_ct_exponent).getD 0)) (-1)) 18 ∧
      t.bits = min (max (toInt32 ((env.args_ct_bits).getD 32)) 1) 51) ∧
    (∀ x : Int, -(2 ^ 31) ≤ x → x < 2 ^ 31 → toInt32 x = x) ∧
    min (max (toInt32 25) (-1)) 18 = 18 ∧
    min (max (toInt32 (-5)) (-1)) 18 = -1 ∧
    min (max (toInt32 0) 1) 51 = 1 ∧
    min (max (toInt32 100) 1) 51 = 51 := by
  obtain ⟨_, _, _, inPtrs, outPtrs, nTB, _, _, _, hloop⟩ :=
    BlindOutputs_ok_inv env ibf obf pks tx vs ts h
  refine ⟨?_, ?_, by decide, by decide, by decide, by decide⟩
  · intro t ht
    obtain ⟨j, _, _, _, _, _, _, _, _, _, hexp, hbits⟩ :=
      blindLoop_trace env inPtrs.length nTB (tx.vout.zip pks)
        (inPtrs ++ outPtrs) 0 0 0 0 vs ts hloop t ht
    exact ⟨hexp, hbits⟩
  · intro x h1 h2
    simp only [toInt32]
    omega

/-- C9: in every completed `BlindOutputs` call, every newly stored range
proof is exactly the byte string reported by range-proof signing (the
5134-byte buffer is trimmed to the actual length, never padded), and its
length is at most 5134 bytes. -/
theorem blind_outputs_proof_size (env : Env) (ibf obf pks : List Bytes)
    (tx : CMutableTransaction) (vs : List ConfidentialValue) (ts : List BlindTrace)
    (h : BlindOutputs env ibf obf pks tx = .ok vs ts) :
    ∀ t ∈ ts,
      t.proof.length ≤ 5134 ∧
      vs.getD t.idx default = .blinded t.commit t.proof t.ephPub ∧
      env.rangeproofSign t.commit t.factor t.nonce t.exponent t.bits t.amount
        = some t.proof := by
  obtain ⟨_, _, _, inPtrs, outPtrs, nTB, _, _, _, hloop⟩ :=
    BlindOutputs_ok_inv env ibf obf pks tx vs ts h
  intro t ht
  obtain ⟨j, _, hidx, _, hvs, _, _, _, hsig, hplen, _, _⟩ :=
    blindLoop_trace env inPtrs.length nTB (tx.vout.zip pks)
      (inPtrs ++ outPtrs) 0 0 0 0 vs ts hloop t ht
  have hj0 : t.idx = j := by omega
  exact ⟨hplen, by rw [hj0]; exact hvs, hsig⟩

/-- C4: in every completed `BlindOutputs` call with at least one output
needing a newly generated blinding factor, exactly one such output's factor
comes from the blind-sum branch — the last one in ascending output index —
and (under the blind-sum library contract over the abstract scalar
interpretation) the scalars of all output blinding factors (caller-supplied
plus newly generated) sum to the scalars of all input blinding factors. -/
theorem blind_outputs_sum_balance (env : Env) (ibf obf pks : List Bytes)
    (tx : CMutableTransaction) (vs : List ConfidentialValue) (ts : List BlindTrace)
    (h : BlindOutputs env ibf obf pks tx = .ok vs ts)
    (hpos : 0 < countEligible env (tx.vout.zip pks))
    (hsum : ∀ (l : List Bytes) (n : Nat) (b : Bytes), env.blindSum l n = some b →
      env.scalarOf b = ((l.take n).map env.scalarOf).sum - ((l.drop n).map env.scalarOf).sum) :
    ts.length = countEligible env (tx.vout.zip pks) ∧
    ts ≠ [] ∧
    (∀ j, j < ts.length → ((ts.getD j default).usedSum = true ↔ j = ts.length - 1)) ∧
    (∀ t ∈ ts, t.usedSum = true → ∀ u ∈ ts, u.idx ≤ t.idx) ∧
    ((obf.filter (fun f => f.length != 0)).map env.scalarOf).sum
        + (ts.map (fun t => env.scalarOf t.factor)).sum
      = ((ibf.filter (fun f => f.length != 0)).map env.scalarOf).sum := by
  obtain ⟨hl1, hl2, hl3, inPtrs, outPtrs, nTB, hc1, hc2, hc3, hloop⟩ :=
    BlindOutputs_ok_inv env ibf obf pks tx vs ts h
  obtain ⟨hofil, hocount⟩ := collectOutputBlinds_some env obf tx.vout pks outPtrs nTB hc2
  obtain ⟨hifil, _⟩ := collectInputBlinds_some ibf inPtrs hc1
  have hcount := blindLoop_count env inPtrs.length nTB (tx.vout.zip pks)
    (inPtrs ++ outPtrs) 0 0 0 0 vs ts hloop
  have hinv : 0 + countEligible env (tx.vout.zip pks) = nTB := by omega
  refine ⟨hcount, ?_, ?_, ?_, ?_⟩
  · intro hnil
    rw [hnil] at hcount
    simp only [List.length_nil] at hcount
    omega
  · intro j hj
    have hus := blindLoop_usedSum env inPtrs.length nTB (tx.vout.zip pks)
      (inPtrs ++ outPtrs) 0 0 0 0 vs ts hloop hinv j hj
    rw [hus]
    constructor
    · intro hd
      have hde : 0 + j + 1 = nTB := of_decide_eq_true hd
      omega
    · intro hj1
      apply decide_eq_true
      omega
  · exact blindLoop_sum_last env inPtrs.length nTB (tx.vout.zip pks)
      (inPtrs ++ outPtrs) 0 0 0 0 vs ts hloop hinv
  · have hs := blindLoop_sum env inPtrs.length nTB hsum (tx.vout.zip pks)
      (inPtrs ++ outPtrs) 0 0 0 0 vs ts hloop
      (by rw [List.length_append]; omega) hinv (by omega)
    rw [List.take_left, List.drop_left] at hs
    rw [← hifil, ← hofil]
    exact hs

/-- Witness for C4 at a concrete input: one confidential input and two
outputs to blind; the first new factor is drawn from the random source, the
second (last) from blind-sum, and the scalar sums balance. -/
theorem blind_outputs_sum_balance_witness :
    tsC4.length = countEligible testEnv (txC4.vout.zip pksC4) ∧
    (tsC4.getD 0 default).usedSum = false ∧
    (tsC4.getD 1 default).usedSum = true ∧
    (tsC4.getD 0 default).idx ≤ (tsC4.getD 1 default).idx ∧
    ((obfC4.filter (fun f => f.length != 0)).map testEnv.scalarOf).sum
        + (tsC4.map (fun t => testEnv.scalarOf t.factor)).sum
      = ((ibfC4.filter (fun f => f.length != 0)).map testEnv.scalarOf).sum := by
  have h := blind_outputs_sum_balance testEnv ibfC4 obfC4 pksC4 txC4 vsC4 tsC4
    (by decide) (by decide)
    (fun l n b hb => by
      injection hb with hb'
      rw [← hb']
      exact testScalar_encodeInt _)
  exact ⟨h.1, by decide, by decide, by decide, h.2.2.2.2⟩

/-- C3: round trip.  For a completed `BlindOutputs` call, any output it
blinded targeting the recipient's public key can be unblinded with the
recipient's private key: under the library contracts for Diffie-Hellman
symmetry and range-proof rewind (the rewind of the signed proof with the
matching nonce recovers the blinding factor and amount), `UnblindOutput`
reports success (1) and returns exactly the original amount `A` and the
32-byte blinding factor that was used to create the commitment. -/
theorem blind_unblind_round_trip (env : Env) (ibf obf pks : List Bytes)
    (tx : CMutableTransaction) (vs : List ConfidentialValue) (ts : List BlindTrace)
    (t : BlindTrace) (recipPriv : Bytes) (A a0 : Int) (bf0 : Bytes)
    (h : BlindOutputs env ibf obf pks tx = .ok vs ts)
    (ht : t ∈ ts)
    (hA : tx.vout.getD t.idx default = .explicitVal A)
    (hpk : pks.getD t.idx [] = env.getPubKey recipPriv)
    (hvalid : env.isValidPubKey t.ephPub = true)
    (hdh : env.ecdh recipPriv t.ephPub = env.ecdh t.ephPriv (env.getPubKey recipPriv))
    (hrw : env.rewind t.commit t.proof t.nonce = some (t.factor, A.toNat))
    (hflen : t.factor.length = 32)
    (h0 : 0 ≤ A) (hmax : A ≤ env.maxMoney) (hbound : env.maxMoney < 2 ^ 63)
    (hmr : env.moneyRange A = true) :
    UnblindOutput env recipPriv (vs.getD t.idx default) a0 bf0 = (1, A, t.factor) ∧
    t.factor.length = 32 ∧
    env.pedersenCommit t.factor A = some t.commit := by
  obtain ⟨hl1, hl2, hl3, inPtrs, outPtrs, nTB, hc1, hc2, hc3, hloop⟩ :=
    BlindOutputs_ok_inv env ibf obf pks tx vs ts h
  obtain ⟨j, hj, hidx, hvin, hvs, hpub, hnon, hpc, hsig, hplen, _, _⟩ :=
    blindLoop_trace env inPtrs.length nTB (tx.vout.zip pks)
      (inPtrs ++ outPtrs) 0 0 0 0 vs ts hloop t ht
  have hidx0 : t.idx = j := by omega
  have hjv : j < tx.vout.length := by
    rw [List.length_zip, ← hl2, Nat.min_self] at hj
    exact hj
  have hpair := zip_getD tx.vout pks j hjv hl2
  have hfst : ((tx.vout.zip pks).getD j default).1 = tx.vout.getD j default := by
    rw [hpair]
  have hsnd : ((tx.vout.zip pks).getD j default).2 = pks.getD j [] := by
    rw [hpair]
  have hvout_j : tx.vout.getD j default = .explicitVal t.amount := hfst.symm.trans hvin
  rw [hidx0] at hA
  have hAmtEq : ConfidentialValue.explicitVal A = .explicitVal t.amount :=
    hA.symm.trans hvout_j
  have hAmt : A = t.amount := by injection hAmtEq
  have hn : env.hash256 (env.ecdh recipPriv t.ephPub) = t.nonce := by
    rw [hdh, ← hpk, hidx0, hnon, hsnd]
  have hc_amount : ¬(A.toNat > toUInt64 env.maxMoney) := by
    simp only [toUInt64]
    omega
  have h64 : toInt64 A.toNat = A := by
    simp only [toInt64]
    rw [if_pos (by omega)]
    omega
  have hcond : ¬(A.toNat > toUInt64 env.maxMoney ∨ env.moneyRange (toInt64 A.toNat) = false) := by
    rw [h64]
    rintro (hgt | hf)
    · exact hc_amount hgt
    · rw [hmr] at hf
      cases hf
  have hvsj : vs.getD t.idx default = .blinded t.commit t.proof t.ephPub := by
    rw [hidx0]
    exact hvs
  refine ⟨?_, hflen, by rw [hAmt]; exact hpc⟩
  rw [hvsj]
  simp only [UnblindOutput, hvalid, hn, hrw]
  rw [if_neg hcond, h64, if_neg (show ¬(true = false) by decide)]

/-- Witness for C3 at a concrete input: blind the amount-42 output to the
recipient key `pkC3`, then unblind it with the recipient's private key,
recovering 42 and the 32-byte factor used in the commitment. -/
theorem blind_unblind_round_trip_witness :
    UnblindOutput testEnv (List.replicate 32 7) (vsC3.getD tC3.idx default) 0 []
      = (1, 42, tC3.factor) ∧
    tC3.factor.length = 32 ∧
    testEnv.pedersenCommit tC3.factor 42 = some tC3.commit :=
  blind_unblind_round_trip testEnv [] [[]] [pkC3] txC3 vsC3 [tC3] tC3
    (List.replicate 32 7) 42 0 []
    (by decide) (by decide) (by decide) (by decide) (by decide) (by decide)
    (by decide) (by decide) (by decide) (by decide) (by decide) (by decide)

/-- Witness for C8 at a concrete input: with configured `-ct_exponent 25`
and `-ct_bits 0`, the parameters actually passed are 18 and 1. -/
theorem blind_outputs_param_clamping_witness :
    (tsC8.getD 0 default).exponent = 18 ∧
    (tsC8.getD 0 default).bits = 1 ∧
    toInt32 25 = 25 ∧ toInt32 (-5) = -5 := by
  have h := blind_outputs_param_clamping envC8 [] [[]] [List.replicate 33 4]
    ⟨0, [.explicitVal 5]⟩ vsSingle tsC8 (by decide)
  refine ⟨((h.1 (tsC8.getD 0 default) (by decide)).1).trans (by decide),
    ((h.1 (tsC8.getD 0 default) (by decide)).2).trans (by decide), by decide, by decide⟩

/-- Witness for C9 at a concrete input: the stored proof equals the signed
proof and is within the 5134-byte bound. -/
theorem blind_outputs_proof_size_witness :
    (tsC9.getD 0 default).proof.length ≤ 5134 ∧
    vsSingle.getD (tsC9.getD 0 default).idx default
      = .blinded (tsC9.getD 0 default).commit (tsC9.getD 0 default).proof
          (tsC9.getD 0 default).ephPub ∧
    testEnv.rangeproofSign (tsC9.getD 0 default).commit (tsC9.getD 0 default).factor
      (tsC9.getD 0 default).nonce (tsC9.getD 0 default).exponent (tsC9.getD 0 default).bits
      (tsC9.getD 0 default).amount = some (tsC9.getD 0 default).proof :=
  blind_outputs_proof_size testEnv [] [[]] [List.replicate 33 4]
    ⟨0, [.explicitVal 5]⟩ vsSingle tsC9 (by decide) (tsC9.getD 0 default) (by decide)

/-- C7: in every `BlindOutputs` call, an output that is already Blinded, or
Explicit without a valid recipient public key, is unchanged after the call
(stated over the result's `vout`, whether the call completes or aborts). -/
theorem blind_outputs_ineligible_unchanged (env : Env) (ibf obf pks : List Bytes)
    (tx : CMutableTransaction) (i : Nat)
    (hi : i < tx.vout.length)
    (hin : (tx.vout.getD i default).IsAmount = false ∨
           env.isValidPubKey (pks.getD i []) = false) :
    (BlindOutputs env ibf obf pks tx).voutOf.getD i default = tx.vout.getD i default := by
  unfold BlindOutputs
  split
  · rfl
  split
  · rfl
  rename_i h1 h2
  split
  · rfl
  split
  · rfl
  rename_i h3 inPtrs hc1
  split
  · rfl
  rename_i outPtrs nTB hc2
  split
  · rfl
  rename_i hc3
  have hlen : tx.vout.length = pks.length := by
    by_contra hne
    exact h2 hne
  have hzlen : i < (tx.vout.zip pks).length := by
    rw [List.length_zip, ← hlen, Nat.min_self]
    exact hi
  have hget : (tx.vout.zip pks).getD i default = (tx.vout.getD i default, pks.getD i []) :=
    zip_getD tx.vout pks i hi hlen
  have hel : eligible env ((tx.vout.zip pks).getD i default) = false := by
    rw [hget]
    simp only [eligible]
    rcases hin with h | h
    · rw [h, Bool.false_and]
    · rw [h, Bool.and_false]
  have := blindLoop_frame env inPtrs.length nTB (tx.vout.zip pks)
    (inPtrs ++ outPtrs) 0 0 0 0 i hzlen hel
  rw [this, hget]

/-- Witness for C7 at a concrete input: an already-Blinded output (with its
mandatory 32-byte caller-supplied factor) passes through a `BlindOutputs`
call untouched. -/
theorem blind_outputs_ineligible_unchanged_witness :
    (BlindOutputs testEnv [] [List.replicate 32 9] [[]]
      ⟨0, [.blinded [1] [2] [3]]⟩).voutOf.getD 0 default = .blinded [1] [2] [3] :=
  blind_outputs_ineligible_unchanged testEnv [] [List.replicate 32 9] [[]]
    ⟨0, [.blinded [1] [2] [3]]⟩ 0 (by decide) (Or.inl (by decide))

/-- C5: every fatal-precondition violation (mismatched sequence lengths, a
non-empty factor that is not exactly 32 bytes, Blinded/Explicit state
inconsistent with the supplied output factors, or non-empty input factors
with zero blinded-or-to-be-blinded outputs) is detected before the mutation
loop: the call aborts with the transaction outputs exactly as they were. -/
theorem blind_outputs_precondition_fatal (env : Env) (ibf obf pks : List Bytes)
    (tx : CMutableTransaction) (hnot : ¬ PreOk env ibf obf pks tx) :
    BlindOutputs env ibf obf pks tx = .fatal tx.vout := by
  unfold BlindOutputs
  split
  · rfl
  split
  · rfl
  rename_i h1 h2
  split
  · rfl
  rename_i h3
  split
  · rfl
  rename_i inPtrs hc1
  split
  · rfl
  rename_i outPtrs nTB hc2
  split
  · rfl
  rename_i hc3
  exfalso
  apply hnot
  have hlen1 : tx.vout.length = obf.length := not_not.mp h1
  have hlen2 : tx.vout.length = pks.length := not_not.mp h2
  obtain ⟨hifil, hiall⟩ := collectInputBlinds_some ibf inPtrs hc1
  obtain ⟨hofil, hocount⟩ := collectOutputBlinds_some env obf tx.vout pks outPtrs nTB hc2
  refine ⟨hlen1, hlen2, not_not.mp h3, hiall,
    collectOutputBlinds_forall env obf tx.vout pks outPtrs nTB hc2, ?_⟩
  intro hex
  obtain ⟨f, hfmem, hfne⟩ := hex
  have hin0 : inPtrs.length ≠ 0 := by
    intro hz
    rw [List.length_eq_zero, hifil, List.filter_eq_nil_iff] at hz
    exact absurd (by simpa using hfne) (by simpa using hz f hfmem)
  have hsum0 : outPtrs.length + nTB ≠ 0 := fun hz => hc3 ⟨hin0, hz⟩
  by_cases ho : outPtrs.length = 0
  · have hn0 : 0 < countEligible env (tx.vout.zip pks) := by omega
    obtain ⟨x, hxmem, hxel⟩ := List.countP_pos_iff.mp hn0
    obtain ⟨i, hi, hgd⟩ := mem_imp_getD x (tx.vout.zip pks) default hxmem
    have hi' : i < tx.vout.length := by
      rw [List.length_zip, ← hlen2, Nat.min_self] at hi
      exact hi
    have hpair := zip_getD tx.vout pks i hi' hlen2
    refine ⟨i, hi', Or.inr ?_⟩
    rw [hgd] at hpair
    have hxel' : (x.1.IsAmount && env.isValidPubKey x.2) = true := hxel
    have hx2 : x.2 = pks.getD i [] := by rw [hpair]
    rw [← hx2]
    simp only [Bool.and_eq_true] at hxel'
    exact hxel'.2
  · have hne : outPtrs ≠ [] := fun hnil => ho (by rw [hnil]; rfl)
    obtain ⟨g, hgmem⟩ := List.exists_mem_of_ne_nil outPtrs hne
    rw [hofil] at hgmem
    obtain ⟨hgobf, hgne⟩ := List.mem_filter.mp hgmem
    obtain ⟨i, hi, hgd⟩ := mem_imp_getD g obf [] hgobf
    refine ⟨i, by omega, Or.inl ?_⟩
    rw [hgd]
    simpa using hgne

/-- Witness for C5 at a concrete input: one output but an empty
output-blinding-factor sequence (mismatched lengths) aborts with the
transaction unchanged. -/
theorem blind_outputs_precondition_fatal_witness :
    BlindOutputs testEnv [] [] [[]] ⟨0, [.explicitVal 1]⟩ = .fatal [.explicitVal 1] :=
  blind_outputs_precondition_fatal testEnv [] [] [[]] ⟨0, [.explicitVal 1]⟩
    (fun hp => absurd hp.1 (by decide))

/-- C6: on an output whose value is Explicit with amount `A`,
`UnblindOutput` returns the "not blinded" discriminant `-1`, copies `A`
into the amount output parameter, and clears the blinding-factor output
parameter to empty, for every key and every environment. -/
theorem unblind_explicit_passthrough (env : Env) (key : Bytes) (a : CAmount)
    (a0 : CAmount) (bf0 : Bytes) :
    UnblindOutput env key (.explicitVal a) a0 bf0 = (-1, a, []) := rfl

/-- C10: on a Blinded output whose nonce-commitment is not a valid public
key, `UnblindOutput` returns the failure discriminant `0` with both output
parameters exactly as the caller passed them in; hence the blinding-factor
output has length 0 or 32 after the call iff it did before. -/
theorem unblind_invalid_key_frame (env : Env) (key c p nc : Bytes)
    (a0 : CAmount) (bf0 : Bytes) (h : env.isValidPubKey nc = false) :
    UnblindOutput env key (.blinded c p nc) a0 bf0 = (0, a0, bf0) ∧
    (((UnblindOutput env key (.blinded c p nc) a0 bf0).2.2.length = 0 ∨
      (UnblindOutput env key (.blinded c p nc) a0 bf0).2.2.length = 32) ↔
      (bf0.length = 0 ∨ bf0.length = 32)) := by
  have hu : UnblindOutput env key (.blinded c p nc) a0 bf0 = (0, a0, bf0) := by
    simp [UnblindOutput, h]
  exact ⟨hu, by rw [hu]⟩

/-- Witness for C10 at a concrete input: nonce-commitment `[3]` is not 33
bytes, so it is invalid in `testEnv`, and the caller-passed values `5` and
`[1, 2]` come back untouched. -/
theorem unblind_invalid_key_frame_witness :
    UnblindOutput testEnv [] (.blinded [1] [2] [3]) 5 [1, 2] = (0, 5, [1, 2]) :=
  (unblind_invalid_key_frame testEnv [] [1] [2] [3] 5 [1, 2] (by decide)).1

/-- Counterexample to C2 as stated: with an invalid nonce-commitment but
caller-passed amount `7` and blinding factor `[9]`, the amount output
parameter is `7`, not `0`, and the blinding-factor output is `[9]`, not
empty. -/
theorem unblind_invalid_key_not_zeroed_cex :
    UnblindOutput testEnv [] (.blinded [1] [2] [1, 2, 3]) 7 [9] = (0, 7, [9]) ∧
    (UnblindOutput testEnv [] (.blinded [1] [2] [1, 2, 3]) 7 [9]).2.1 ≠ 0 := by
  constructor
  · decide
  · decide

/-- C2 (amended): on a Blinded output whose nonce-commitment is not a valid
public key, `UnblindOutput` reports the failure discriminant `0` and returns
immediately, leaving the amount and blinding-factor output parameters at
whatever values the caller passed in, regardless of the private key used. -/
theorem unblind_invalid_key_failure (env : Env) (key c p nc : Bytes)
    (a0 : CAmount) (bf0 : Bytes) (h : env.isValidPubKey nc = false) :
    (UnblindOutput env key (.blinded c p nc) a0 bf0).1 = 0 ∧
    (UnblindOutput env key (.blinded c p nc) a0 bf0).2.1 = a0 ∧
    (UnblindOutput env key (.blinded c p nc) a0 bf0).2.2 = bf0 := by
  simp [UnblindOutput, h]

/-- Witness for the amended C2 at a concrete input. -/
theorem unblind_invalid_key_failure_witness :
    (UnblindOutput testEnv [0] (.blinded [4] [5] []) 11 [6]).1 = 0 ∧
    (UnblindOutput testEnv [0] (.blinded [4] [5] []) 11 [6]).2.1 = 11 ∧
    (UnblindOutput testEnv [0] (.blinded [4] [5] []) 11 [6]).2.2 = [6] :=
  unblind_invalid_key_failure testEnv [0] [4] [5] [] 11 [6] (by decide)

/-- Counterexample to C1 as stated: a Blinded output with a valid (33-byte)
ephemeral key whose rewind succeeds with the out-of-range amount
`2200000000000000 > MAX_MONEY`.  The outputs are zeroed/cleared, but the
returned discriminant is `1` (success), not the failure outcome `0` the
claim requires. -/
theorem unblind_out_of_range_success_cex :
    UnblindOutput testEnv []
      (.blinded [1] (List.replicate 32 5 ++ [2200000000000000]) (List.replicate 33 0))
      7 [9] = (1, 0, []) ∧
    (UnblindOutput testEnv []
      (.blinded [1] (List.replicate 32 5 ++ [2200000000000000]) (List.replicate 33 0))
      7 [9]).1 ≠ 0 := by
  constructor
  · decide
  · decide

/-- C1 (amended): on a Blinded output with a valid ephemeral key, if the
range-proof rewind reports success but the recovered amount exceeds
`MAX_MONEY` or fails the `MoneyRange` predicate, then the amount output
parameter is set to `0` and the blinding-factor output parameter is cleared
to empty, but the operation reports the success discriminant `1` (the
return value reflects only whether the rewind itself succeeded), not
failure. -/
theorem unblind_out_of_range_zeroes (env : Env) (key c p nc : Bytes)
    (a0 : CAmount) (bf0 f : Bytes) (amt : Nat)
    (hv : env.isValidPubKey nc = true)
    (hr : env.rewind c p (env.hash256 (env.ecdh key nc)) = some (f, amt))
    (hrange : amt > toUInt64 env.maxMoney ∨ env.moneyRange (toInt64 amt) = false) :
    UnblindOutput env key (.blinded c p nc) a0 bf0 = (1, 0, []) := by
  simp only [UnblindOutput, hv, hr]
  simp [hrange]

/-- Witness for the amended C1 at a concrete input. -/
theorem unblind_out_of_range_zeroes_witness :
    UnblindOutput testEnv [2]
      (.blinded [1] (List.replicate 32 4 ++ [2100000000000001]) (List.replicate 33 1))
      3 [8] = (1, 0, []) :=
  unblind_out_of_range_zeroes testEnv [2] [1]
    (List.replicate 32 4 ++ [2100000000000001]) (List.replicate 33 1)
    3 [8] (List.replicate 32 4) 2100000000000001
    (by decide) (by decide) (by decide)

end Blind
